import Mathlib

/-!
# Verification of the mcproxy relay engine

A shallow embedding of `src/main.go` of cryptexctl/mcproxy: a TCP/UDP
forwarding proxy that prepends a PROXY protocol v1 header on TCP and
multiplexes UDP datagrams over per-client backend sockets with an idle
reaper.  Bytes are modelled as `Nat`, socket handles as `Nat` identifiers,
wall-clock instants as `Nat`, durations as `Int` (a `time.Duration` may be
zero or negative).
-/

namespace MCProxy

/-- Bytes of an ASCII string, as the model's byte type (`Nat`). -/
def strBytes (s : String) : List Nat :=
  s.data.map Char.toNat

/-- The PROXY protocol v1 header line built by `handleTCP` (main.go line 98):
`fmt.Sprintf("PROXY TCP4 %s %s %d %d\r\n", cliAddr.IP, locAddr.IP, cliAddr.Port, locAddr.Port)`.
`cliIP`/`cliPort` come from `client.RemoteAddr()`, `locIP`/`locPort` from
`backend.LocalAddr()`. -/
def mkHeader (cliIP locIP : String) (cliPort locPort : Nat) : String :=
  "PROXY TCP4 " ++ cliIP ++ " " ++ locIP ++ " " ++
    toString cliPort ++ " " ++ toString locPort ++ "\r\n"

/-! ## TCP handler (`handleTCP`, main.go lines 81-109)

The handler is modelled as the ordered list of externally visible actions it
performs, parameterised by the outcome of the backend dial, the outcome of
the header write, and the byte streams each copy direction relays. -/

/-- One externally visible action of the TCP handler. -/
inductive TAct where
  | incTCP : TAct
  | dialAttempt : TAct
  | logLine : String → TAct
  | writeBackendStr : String → TAct
  | relayC2B : List Nat → TAct
  | setDLBackend : TAct
  | relayB2C : List Nat → TAct
  | setDLClient : TAct
  | closeBackend : TAct
  | closeClient : TAct
  | decTCP : TAct
deriving DecidableEq

/-- The ordered action trace of `handleTCP` (main.go lines 81-109).
`atomic.AddInt64(&activeTCP,1)` first; the deferred block (close client,
decrement) runs on every exit path, after the later-deferred
`backend.Close()` when the dial succeeded.  On dial failure the handler
logs and returns.  On header-write failure it logs and returns.  Otherwise
it writes the header, runs both copy directions and joins them. -/
def handleTCPTrace (dialOk hdrOk : Bool) (cliIP locIP : String)
    (cliPort locPort : Nat) (c2b b2c : List Nat) : List TAct :=
  [TAct.incTCP, TAct.dialAttempt] ++
    (if dialOk then
      TAct.writeBackendStr (mkHeader cliIP locIP cliPort locPort) ::
        (if hdrOk then
          [TAct.relayC2B c2b, TAct.setDLBackend,
           TAct.relayB2C b2c, TAct.setDLClient]
        else
          [TAct.logLine "write hdr"]) ++
        [TAct.closeBackend, TAct.closeClient, TAct.decTCP]
    else
      [TAct.logLine "dial backend", TAct.closeClient, TAct.decTCP])

/-- The bytes a trace writes to the backend socket, in order: header-string
writes (`io.WriteString(backend, hdr)`) and client-to-backend relayed bytes
(`io.Copy(backend, client)`). -/
def backendBytes : List TAct → List Nat
  | [] => []
  | TAct.writeBackendStr s :: rest => strBytes s ++ backendBytes rest
  | TAct.relayC2B bs :: rest => bs ++ backendBytes rest
  | _ :: rest => backendBytes rest

/-- The bytes a trace writes to the client socket (backend-to-client copy). -/
def clientBytes : List TAct → List Nat
  | [] => []
  | TAct.relayB2C bs :: rest => bs ++ clientBytes rest
  | _ :: rest => clientBytes rest

example :
    backendBytes (handleTCPTrace true true "1.2.3.4" "10.0.0.1" 7 9 [80, 81] []) =
      strBytes (mkHeader "1.2.3.4" "10.0.0.1" 7 9) ++ [80, 81] := by
  decide

example :
    handleTCPTrace false true "1.2.3.4" "10.0.0.1" 7 9 [80] [] =
      [TAct.incTCP, TAct.dialAttempt, TAct.logLine "dial backend",
       TAct.closeClient, TAct.decTCP] := by
  decide

/-! ## UDP multiplexer (`udpForward`, main.go lines 117-184)

State: the association map (`assocs`, keyed by `addr.String()`), the atomic
counter `activeUDP`, and a fresh-socket supply modelling `net.DialUDP`
handing out new backend sockets.  Events are the things the goroutines
react to: a datagram arriving on the listener, a datagram or read error on
an association's backend socket, and a reaper wake-up. -/

/-- One map entry (`type assoc`, main.go lines 111-115). -/
structure Assoc where
  cliAddr : String
  backendSock : Nat
  lastSeen : Nat
deriving DecidableEq

/-- The shared state of `udpForward`. -/
structure UDPState where
  assocs : List (String × Assoc)
  activeUDP : Int
  nextSock : Nat
deriving DecidableEq

/-- The state at startup: empty map, zero counter. -/
def initUDP : UDPState := ⟨[], 0, 0⟩

/-- Read buffer size: both `buf` in the listener loop (line 147) and `b` in
the per-association forwarding goroutine (line 170) are `make([]byte, 2048)`,
so a read delivers at most 2048 bytes of a datagram. -/
def udpBufSize : Nat := 2048

/-- The reaper's fixed sleep interval, `time.Sleep(time.Minute)` (line 134),
in seconds. -/
def reaperIntervalSec : Nat := 60

/-- An event the multiplexer reacts to. -/
inductive UDPEvent where
  | datagram : Nat → String → List Nat → Bool → UDPEvent
  | backendPacket : String → List Nat → UDPEvent
  | backendErr : String → UDPEvent
  | sweep : Nat → UDPEvent
deriving DecidableEq

/-- An externally visible output of one step. -/
inductive UDPOut where
  | dialedBackend : Nat → UDPOut
  | toBackend : Nat → List Nat → UDPOut
  | toClient : String → List Nat → UDPOut
  | closeSock : Nat → UDPOut
  | logged : String → UDPOut
deriving DecidableEq

/-- Go map lookup `assocs[key]` (first entry under `key`). -/
def findAssoc (key : String) : List (String × Assoc) → Option Assoc
  | [] => none
  | (k, v) :: rest => if k = key then some v else findAssoc key rest

/-- `a.lastSeen = time.Now()` (line 180) applied to the entry under `key`. -/
def refreshSeen (key : String) (now : Nat) :
    List (String × Assoc) → List (String × Assoc)
  | [] => []
  | (k, v) :: rest =>
    if k = key then (k, { v with lastSeen := now }) :: rest
    else (k, v) :: refreshSeen key now rest

/-- The reaper's scan of the map (main.go lines 136-141): for each entry
with `time.Since(v.lastSeen) > idle`, close its backend socket, delete it,
decrement `activeUDP` once.  Returns (kept entries, close outputs, number
of evictions). -/
def sweepScan (idle : Int) (now : Nat) :
    List (String × Assoc) → List (String × Assoc) × List UDPOut × Nat
  | [] => ([], [], 0)
  | (k, v) :: rest =>
    let r := sweepScan idle now rest
    if (now : Int) - (v.lastSeen : Int) > idle then
      (r.1, UDPOut.closeSock v.backendSock :: r.2.1, r.2.2 + 1)
    else
      ((k, v) :: r.1, r.2.1, r.2.2)

/-- One step of the multiplexer.  `datagram now src data dialOk`: the
listener loop body (lines 148-182), where `data.take udpBufSize` is what
`pc.ReadFrom(buf)` delivered and `dialOk` is the outcome of `net.DialUDP`
when no association exists.  `backendPacket cli data`: one iteration of a
forwarding goroutine (lines 169-178) relaying `data.take udpBufSize` to its
recorded client address.  `backendErr`: the goroutine's `return` on a read
error — it touches nothing.  `sweep now`: one reaper pass. -/
def udpStep (idle : Int) (s : UDPState) : UDPEvent → UDPState × List UDPOut
  | UDPEvent.datagram now src data dialOk =>
    let payload := data.take udpBufSize
    match findAssoc src s.assocs with
    | some a =>
      ({ s with assocs := refreshSeen src now s.assocs },
       [UDPOut.toBackend a.backendSock payload])
    | none =>
      if dialOk then
        ({ assocs := (src, ⟨src, s.nextSock, now⟩) :: s.assocs,
           activeUDP := s.activeUDP + 1,
           nextSock := s.nextSock + 1 },
         [UDPOut.dialedBackend s.nextSock, UDPOut.toBackend s.nextSock payload])
      else
        (s, [UDPOut.logged "dial udp backend"])
  | UDPEvent.backendPacket cli data =>
    (s, [UDPOut.toClient cli (data.take udpBufSize)])
  | UDPEvent.backendErr _ => (s, [])
  | UDPEvent.sweep now =>
    let r := sweepScan idle now s.assocs
    ({ s with assocs := r.1, activeUDP := s.activeUDP - r.2.2 }, r.2.1)

/-- Run a list of events from a state, returning the final state. -/
def udpRun (idle : Int) (s : UDPState) : List UDPEvent → UDPState
  | [] => s
  | e :: rest => udpRun idle (udpStep idle s e).1 rest

example :
    (udpStep 300 initUDP (UDPEvent.datagram 5 "c:1" [10, 11] true)).1 =
      ⟨[("c:1", ⟨"c:1", 0, 5⟩)], 1, 1⟩ := by
  decide

example :
    (udpStep 300 (udpRun 300 initUDP [UDPEvent.datagram 5 "c:1" [10] true])
        (UDPEvent.datagram 6 "c:1" [12] true)).2 =
      [UDPOut.toBackend 0 [12]] := by
  decide

example :
    (udpStep 300 (udpRun 300 initUDP [UDPEvent.datagram 5 "c:1" [10] true])
        (UDPEvent.sweep 400)).1 = ⟨[], 0, 1⟩ := by
  decide

/-! ## Configuration loading (`loadConfig`, main.go lines 37-54) -/

/-- The `Config` struct (main.go lines 20-30). -/
structure GoConfig where
  listenTCP : String
  listenUDP : String
  backendTCP : String
  backendUDP : String
  idleTimeoutSeconds : Int
deriving DecidableEq

/-- The defaults installed before reading the file (lines 39-43). -/
def defaultConfig : GoConfig :=
  ⟨":25565", ":25565", "127.0.0.1:25565", "127.0.0.1:25565", 300⟩

/-- Outcome of `os.ReadFile` + `toml.Unmarshal`: file missing, file present
but unparsable, or parsed (the struct after unmarshalling over the
defaults). -/
inductive ConfigFile where
  | missing : ConfigFile
  | malformed : ConfigFile
  | parsed : GoConfig → ConfigFile
deriving DecidableEq

/-- `loadConfig` (lines 37-54): missing file returns the defaults, a parse
error is fatal (`none`), and any parsed struct is returned unvalidated. -/
def loadConfig : ConfigFile → Option GoConfig
  | ConfigFile.missing => some defaultConfig
  | ConfigFile.malformed => none
  | ConfigFile.parsed c => some c

/-! ## TCP session join (`handleTCP`, main.go lines 104-108)

The two copy goroutines are modelled as fixed action sequences and the
relay phase as an arbitrary interleaving of the two; `wg.Wait()` returns
only after both goroutines have run `wg.Done()`. -/

/-- A copy direction of the TCP relay. -/
inductive Dir where
  | c2b : Dir
  | b2c : Dir
deriving DecidableEq

/-- The opposite direction. -/
def Dir.other : Dir → Dir
  | Dir.c2b => Dir.b2c
  | Dir.b2c => Dir.c2b

/-- The two sockets of a TCP session. -/
inductive Sock where
  | client : Sock
  | backend : Sock
deriving DecidableEq

/-- The socket a copy direction reads from. -/
def readSock : Dir → Sock
  | Dir.c2b => Sock.client
  | Dir.b2c => Sock.backend

/-- The socket each goroutine calls `SetDeadline(time.Now())` on when its
copy returns: line 106 sets it on `backend` after `io.Copy(backend, client)`,
line 107 on `client` after `io.Copy(client, backend)`. -/
def deadlineTarget : Dir → Sock
  | Dir.c2b => Sock.backend
  | Dir.b2c => Sock.client

/-- An observable event inside the relay phase. -/
inductive SesEv where
  | copyDone : Dir → SesEv
  | setDeadline : Sock → SesEv
  | wgDone : Dir → SesEv
deriving DecidableEq

/-- The program-order event sequence of the copy goroutine for direction
`d`: its `io.Copy` returns, it sets the deadline, it calls `wg.Done()`. -/
def goroutineSeq (d : Dir) : List SesEv :=
  [SesEv.copyDone d, SesEv.setDeadline (deadlineTarget d), SesEv.wgDone d]

/-- `Interleave l r t`: `t` is an interleaving of `l` and `r`. -/
inductive Interleave {α : Type} : List α → List α → List α → Prop where
  | nil : Interleave [] [] []
  | left : ∀ {a : α} {l r t : List α},
      Interleave l r t → Interleave (a :: l) r (a :: t)
  | right : ∀ {a : α} {l r t : List α},
      Interleave l r t → Interleave l (a :: r) (a :: t)

/-- The relay phase of one TCP session: any interleaving of the two copy
goroutines; `wg.Wait()` (line 108) returns only after the whole trace. -/
def relayPhase (t : List SesEv) : Prop :=
  Interleave (goroutineSeq Dir.c2b) (goroutineSeq Dir.b2c) t

/-! ## PROXY protocol v1 well-formedness (for the TCP4 family)

Modelled from the wire contract the spec names: a valid `TCP4` line is
`PROXY TCP4 <ip4> <ip4> <port> <port>\r\n` with dotted-decimal addresses. -/

/-- Characters allowed in a dotted-decimal IPv4 literal. -/
def isIPv4Char (c : Char) : Bool := c.isDigit || c == '.'

/-- Dotted-decimal shape (digits and dots only, nonempty). -/
def ipv4Text (l : List Char) : Bool := !l.isEmpty && l.all isIPv4Char

/-- Nonempty digit string. -/
def digitsText (l : List Char) : Bool := !l.isEmpty && l.all Char.isDigit

/-- Split a character list into space-separated fields. -/
def splitOnSpace : List Char → List (List Char)
  | [] => [[]]
  | c :: rest =>
    match splitOnSpace rest with
    | [] => [[]]
    | f :: fs => if c = ' ' then [] :: f :: fs else (c :: f) :: fs

/-- Whether a line is a well-formed PROXY protocol v1 `TCP4` header:
`PROXY TCP4 <ip4> <ip4> <port> <port>\r\n`. -/
def proxyV1TCP4Wf (line : String) : Bool :=
  let l := line.data
  let body := l.take (l.length - 2)
  (l.drop (l.length - 2) == ['\r', '\n']) &&
    match splitOnSpace body with
    | [p, fam, ip1, ip2, q1, q2] =>
      p == "PROXY".data && fam == "TCP4".data &&
        ipv4Text ip1 && ipv4Text ip2 && digitsText q1 && digitsText q2
    | _ => false

example : proxyV1TCP4Wf (mkHeader "1.2.3.4" "10.0.0.1" 7 9) = true := by decide

example : proxyV1TCP4Wf (mkHeader "2001:db8::1" "10.0.0.1" 7 9) = false := by
  decide

/-! ## Theorems -/

/-- C1: for every TCP client connection whose backend dial succeeds, the
bytes written to the backend socket are exactly the PROXY header line
`PROXY TCP4 <clientIP> <proxyIP> <clientPort> <proxyPort>\r\n` (built from
the client's remote address and the local address of the dialled backend
socket) followed by the client's relayed payload — so the header comes
first, and client bytes reach the backend only after it (and only if the
header write succeeded). -/
theorem tcp_header_precedes_payload (hdrOk : Bool) (cliIP locIP : String)
    (cliPort locPort : Nat) (c2b b2c : List Nat) :
    backendBytes (handleTCPTrace true hdrOk cliIP locIP cliPort locPort c2b b2c) =
      strBytes (mkHeader cliIP locIP cliPort locPort) ++
        (if hdrOk then c2b else []) := by
  cases hdrOk <;> simp [handleTCPTrace, backendBytes]

/-- C6: on every exit path of the TCP handler — dial failure, header write
failure, normal session end — the client socket is closed exactly once and
active-TCP is decremented exactly once; exactly one dial is attempted; and
on dial failure the handler just logs and returns. -/
theorem tcp_handler_every_exit_cleanup (dialOk hdrOk : Bool)
    (cliIP locIP : String) (cliPort locPort : Nat) (c2b b2c : List Nat) :
    (handleTCPTrace dialOk hdrOk cliIP locIP cliPort locPort c2b b2c).count
        TAct.closeClient = 1 ∧
    (handleTCPTrace dialOk hdrOk cliIP locIP cliPort locPort c2b b2c).count
        TAct.decTCP = 1 ∧
    (handleTCPTrace dialOk hdrOk cliIP locIP cliPort locPort c2b b2c).count
        TAct.dialAttempt = 1 ∧
    (dialOk = false →
      handleTCPTrace dialOk hdrOk cliIP locIP cliPort locPort c2b b2c =
        [TAct.incTCP, TAct.dialAttempt, TAct.logLine "dial backend",
         TAct.closeClient, TAct.decTCP]) := by
  cases dialOk <;> cases hdrOk <;>
    simp [handleTCPTrace, List.count_cons, List.count_nil]

/-- Witness for `tcp_handler_every_exit_cleanup` at a concrete input. -/
theorem tcp_handler_every_exit_cleanup_witness :
    (handleTCPTrace false true "1.2.3.4" "10.0.0.1" 7 9 [80] []).count
        TAct.closeClient = 1 ∧
    (handleTCPTrace false true "1.2.3.4" "10.0.0.1" 7 9 [80] []).count
        TAct.decTCP = 1 ∧
    (handleTCPTrace false true "1.2.3.4" "10.0.0.1" 7 9 [80] []).count
        TAct.dialAttempt = 1 ∧
    handleTCPTrace false true "1.2.3.4" "10.0.0.1" 7 9 [80] [] =
      [TAct.incTCP, TAct.dialAttempt, TAct.logLine "dial backend",
       TAct.closeClient, TAct.decTCP] :=
  ⟨(tcp_handler_every_exit_cleanup false true "1.2.3.4" "10.0.0.1" 7 9 [80] []).1,
   (tcp_handler_every_exit_cleanup false true "1.2.3.4" "10.0.0.1" 7 9 [80] []).2.1,
   (tcp_handler_every_exit_cleanup false true "1.2.3.4" "10.0.0.1" 7 9 [80] []).2.2.1,
   (tcp_handler_every_exit_cleanup false true "1.2.3.4" "10.0.0.1" 7 9 [80] []).2.2.2 rfl⟩

/-- C9: the injected header always begins with the literal `PROXY TCP4 `
whatever the address texts are; an IPv6 client address is interpolated
verbatim, yielding a line labelled `TCP4` that carries IPv6 address text
and is not a well-formed PROXY protocol v1 `TCP4` line (the same format
applied to IPv4 text is well-formed). -/
theorem tcp4_label_regardless_of_family :
    (∀ cliIP locIP cliPort locPort,
      (mkHeader cliIP locIP cliPort locPort).data.take 11 = "PROXY TCP4 ".data) ∧
    mkHeader "2001:db8::1" "10.0.0.1" 50700 25565 =
      "PROXY TCP4 2001:db8::1 10.0.0.1 50700 25565\r\n" ∧
    proxyV1TCP4Wf (mkHeader "2001:db8::1" "10.0.0.1" 50700 25565) = false ∧
    proxyV1TCP4Wf (mkHeader "1.2.3.4" "10.0.0.1" 50700 25565) = true := by
  refine ⟨fun cliIP locIP cliPort locPort => ?_, by decide, by decide, by decide⟩
  have h : (mkHeader cliIP locIP cliPort locPort).data =
      "PROXY TCP4 ".data ++
        (cliIP.data ++ " ".data ++ locIP.data ++ " ".data ++
          (toString cliPort).data ++ " ".data ++ (toString locPort).data ++
          "\r\n".data) := by
    simp [mkHeader, String.data_append, List.append_assoc]
  have h11 : ("PROXY TCP4 ").data.length = 11 := by decide
  rw [h, ← h11, List.take_left]

/-- The reaper scan when the idle threshold is zero or negative: every
entry whose last activity lies strictly in the past is evicted. -/
theorem sweepScan_nonpos_idle (idle : Int) (now : Nat) :
    ∀ l : List (String × Assoc), idle ≤ 0 → (∀ p ∈ l, p.2.lastSeen < now) →
      sweepScan idle now l =
        ([], l.map (fun p => UDPOut.closeSock p.2.backendSock), l.length) := by
  intro l
  induction l with
  | nil => intro _ _; rfl
  | cons hd tl ih =>
    intro hidle hseen
    have hhd : hd.2.lastSeen < now := hseen hd (List.mem_cons_self hd tl)
    have htl := ih hidle (fun p hp => hseen p (List.mem_cons_of_mem hd hp))
    have hcond : idle < (now : Int) - (hd.2.lastSeen : Int) := by
      have : (hd.2.lastSeen : Int) < (now : Int) := by exact_mod_cast hhd
      omega
    simp [sweepScan, htl, hcond]

/-- C10: with `idle_timeout_seconds` zero or negative, a reaper sweep
evicts every association whose last activity is even one instant old —
the whole map empties, every backend socket is closed, and active-UDP
drops by the map's size; and `loadConfig` returns any parsed configuration
(such values included) unvalidated. -/
theorem nonpos_idle_timeout_sweeps_everything (idle : Int) (now : Nat)
    (s : UDPState) (hidle : idle ≤ 0)
    (hseen : ∀ p ∈ s.assocs, p.2.lastSeen < now) :
    (udpStep idle s (UDPEvent.sweep now)).1.assocs = [] ∧
    (udpStep idle s (UDPEvent.sweep now)).1.activeUDP =
      s.activeUDP - s.assocs.length ∧
    (udpStep idle s (UDPEvent.sweep now)).2 =
      s.assocs.map (fun p => UDPOut.closeSock p.2.backendSock) ∧
    (∀ c : GoConfig, loadConfig (ConfigFile.parsed c) = some c) := by
  have h := sweepScan_nonpos_idle idle now s.assocs hidle hseen
  refine ⟨?_, ?_, ?_, fun c => rfl⟩ <;> simp [udpStep, h]

/-- Witness for `nonpos_idle_timeout_sweeps_everything`: an association
refreshed at instant 4 is evicted by a sweep at instant 5 under a zero
timeout. -/
theorem nonpos_idle_timeout_sweeps_everything_witness :
    (udpStep 0 ⟨[("c", ⟨"c", 3, 4⟩)], 1, 4⟩ (UDPEvent.sweep 5)).1.assocs = [] ∧
    (udpStep 0 ⟨[("c", ⟨"c", 3, 4⟩)], 1, 4⟩ (UDPEvent.sweep 5)).1.activeUDP =
      1 - [("c", (⟨"c", 3, 4⟩ : Assoc))].length ∧
    (udpStep 0 ⟨[("c", ⟨"c", 3, 4⟩)], 1, 4⟩ (UDPEvent.sweep 5)).2 =
      [("c", (⟨"c", 3, 4⟩ : Assoc))].map
        (fun p => UDPOut.closeSock p.2.backendSock) ∧
    (∀ c : GoConfig, loadConfig (ConfigFile.parsed c) = some c) :=
  nonpos_idle_timeout_sweeps_everything 0 5 ⟨[("c", ⟨"c", 3, 4⟩)], 1, 4⟩
    (by decide) (by intro p hp; simp at hp; simp [hp])

/-- `sweepScan` characterised by filters: kept entries, close outputs and
the eviction count are all determined by the strict idle comparison. -/
theorem sweepScan_eq_filter (idle : Int) (now : Nat) :
    ∀ l : List (String × Assoc),
      sweepScan idle now l =
        (l.filter (fun p => !decide (idle < (now : Int) - (p.2.lastSeen : Int))),
         (l.filter (fun p => decide (idle < (now : Int) - (p.2.lastSeen : Int)))).map
           (fun p => UDPOut.closeSock p.2.backendSock),
         (l.filter
           (fun p => decide (idle < (now : Int) - (p.2.lastSeen : Int)))).length) := by
  intro l
  induction l with
  | nil => rfl
  | cons hd tl ih =>
    by_cases hc : idle < (now : Int) - (hd.2.lastSeen : Int) <;>
      simp [sweepScan, ih, hc, List.filter_cons]

/-- C4: a reaper pass, holding the map lock, evicts exactly the
associations whose time since last activity strictly exceeds the idle
threshold — each such entry has its backend socket closed, is removed, and
costs one active-UDP decrement — while every other entry is kept verbatim;
the reaper's wake interval is the fixed constant of one minute. -/
theorem reaper_evicts_exactly_idle (idle : Int) (now : Nat) (s : UDPState) :
    (udpStep idle s (UDPEvent.sweep now)).1.assocs =
      s.assocs.filter
        (fun p => !decide (idle < (now : Int) - (p.2.lastSeen : Int))) ∧
    (udpStep idle s (UDPEvent.sweep now)).2 =
      (s.assocs.filter
        (fun p => decide (idle < (now : Int) - (p.2.lastSeen : Int)))).map
        (fun p => UDPOut.closeSock p.2.backendSock) ∧
    (udpStep idle s (UDPEvent.sweep now)).1.activeUDP =
      s.activeUDP -
        (s.assocs.filter
          (fun p => decide (idle < (now : Int) - (p.2.lastSeen : Int)))).length ∧
    (udpStep idle s (UDPEvent.sweep now)).1.nextSock = s.nextSock ∧
    reaperIntervalSec = 60 := by
  have h := sweepScan_eq_filter idle now s.assocs
  refine ⟨?_, ?_, ?_, ?_, rfl⟩ <;> simp [udpStep, h]

/-- Taking from a replicated list. -/
theorem take_replicate_min {α : Type} (a : α) :
    ∀ n m, (List.replicate m a).take n = List.replicate (Nat.min n m) a := by
  intro n
  induction n with
  | zero => intro m; simp
  | succ k ih =>
    intro m
    cases m with
    | zero => simp
    | succ j =>
      simp [List.replicate_succ, List.take_succ_cons, ih j, Nat.succ_min_succ]

/-- The listener-loop branch that creates a fresh association (main.go
lines 158-181), as one equation. -/
theorem udpStep_datagram_new (idle : Int) (now : Nat) (src : String)
    (data : List Nat) (s : UDPState) (h : findAssoc src s.assocs = none) :
    udpStep idle s (UDPEvent.datagram now src data true) =
      ({ assocs := (src, ⟨src, s.nextSock, now⟩) :: s.assocs,
         activeUDP := s.activeUDP + 1,
         nextSock := s.nextSock + 1 },
       [UDPOut.dialedBackend s.nextSock,
        UDPOut.toBackend s.nextSock (data.take udpBufSize)]) := by
  simp [udpStep, h]

/-- Witness for `udpStep_datagram_new`. -/
theorem udpStep_datagram_new_witness :
    udpStep 300 initUDP (UDPEvent.datagram 2 "c" [9] true) =
      (⟨[("c", ⟨"c", 0, 2⟩)], 1, 1⟩,
       [UDPOut.dialedBackend 0, UDPOut.toBackend 0 [9]]) :=
  udpStep_datagram_new 300 2 "c" [9] initUDP rfl

/-- C2 counterexample: the listener reads datagrams into a 2048-byte
buffer, so a 2049-byte datagram is forwarded truncated to its first 2048
bytes — not byte-for-byte identical. -/
theorem udp_oversize_datagram_truncated :
    (udpStep 300 initUDP
        (UDPEvent.datagram 0 "1.2.3.4:50000" (List.replicate 2049 7) true)).2 =
      [UDPOut.dialedBackend 0, UDPOut.toBackend 0 (List.replicate 2048 7)] ∧
    (List.replicate 2048 7 : List Nat) ≠ List.replicate 2049 7 := by
  have hmin : Nat.min udpBufSize 2049 = 2048 := by
    show Nat.min 2048 2049 = 2048
    decide
  have ht : (List.replicate 2049 (7 : Nat)).take udpBufSize =
      List.replicate 2048 7 := by
    rw [take_replicate_min, hmin]
  constructor
  · rw [udpStep_datagram_new 300 0 "1.2.3.4:50000" (List.replicate 2049 7)
      initUDP rfl, ht]
    rfl
  · intro h
    have h1 : (List.replicate 2048 (7 : Nat)).length = 2048 :=
      List.length_replicate 2048 7
    have h2 : (List.replicate 2049 (7 : Nat)).length = 2049 :=
      List.length_replicate 2049 7
    have hlen : (2048 : Nat) = 2049 := by rw [← h1, ← h2, h]
    omega

/-- C2 (amended): for datagrams of at most the 2048-byte buffer size, the
forwarded payload is byte-for-byte identical to the received payload in
both directions — client to backend (whether the association already
exists or is created by this datagram) and backend to client. -/
theorem udp_payload_identical_upto_bufsize (idle : Int) (s : UDPState)
    (now : Nat) (src cli : String) (data : List Nat) (dialOk : Bool)
    (hlen : data.length ≤ udpBufSize) :
    (∀ a, findAssoc src s.assocs = some a →
      (udpStep idle s (UDPEvent.datagram now src data dialOk)).2 =
        [UDPOut.toBackend a.backendSock data]) ∧
    (findAssoc src s.assocs = none → dialOk = true →
      (udpStep idle s (UDPEvent.datagram now src data dialOk)).2 =
        [UDPOut.dialedBackend s.nextSock, UDPOut.toBackend s.nextSock data]) ∧
    (udpStep idle s (UDPEvent.backendPacket cli data)).2 =
      [UDPOut.toClient cli data] := by
  have htake : data.take udpBufSize = data := List.take_of_length_le hlen
  refine ⟨fun a ha => ?_, fun hn hd => ?_, ?_⟩
  · simp [udpStep, ha, htake]
  · simp [udpStep, hn, hd, htake]
  · simp [udpStep, htake]

/-- Witness for `udp_payload_identical_upto_bufsize`: a three-byte datagram
from a known client is forwarded verbatim. -/
theorem udp_payload_identical_upto_bufsize_witness :
    (udpStep 300 ⟨[("c", ⟨"c", 4, 0⟩)], 1, 5⟩
        (UDPEvent.datagram 9 "c" [1, 2, 3] true)).2 =
      [UDPOut.toBackend 4 [1, 2, 3]] :=
  (udp_payload_identical_upto_bufsize 300 ⟨[("c", ⟨"c", 4, 0⟩)], 1, 5⟩ 9 "c"
      "cli" [1, 2, 3] true (by decide)).1 ⟨"c", 4, 0⟩ (by decide)

/-- A head entry under a different key is invisible to `findAssoc`. -/
theorem findAssoc_cons_ne (k src : String) (a : Assoc)
    (l : List (String × Assoc)) (h : k ≠ src) :
    findAssoc k ((src, a) :: l) = findAssoc k l := by
  simp [findAssoc, Ne.symm h]

/-- Refreshing a key's timestamp updates what `findAssoc` returns for it. -/
theorem findAssoc_refreshSeen_self (key : String) (now : Nat) :
    ∀ l a, findAssoc key l = some a →
      findAssoc key (refreshSeen key now l) =
        some { a with lastSeen := now } := by
  intro l
  induction l with
  | nil => intro a h; simp [findAssoc] at h
  | cons hd tl ih =>
    intro a h
    obtain ⟨k0, v⟩ := hd
    by_cases h0 : k0 = key
    · subst h0
      simp [findAssoc] at h
      subst h
      simp [refreshSeen, findAssoc]
    · simp [findAssoc, h0] at h
      simp [refreshSeen, findAssoc, h0, ih a h]

/-- Refreshing one key leaves every other key's entry untouched. -/
theorem findAssoc_refreshSeen_ne (key k : String) (now : Nat) (hk : k ≠ key) :
    ∀ l, findAssoc k (refreshSeen key now l) = findAssoc k l := by
  intro l
  induction l with
  | nil => rfl
  | cons hd tl ih =>
    obtain ⟨k0, v⟩ := hd
    by_cases h0 : k0 = key
    · subst h0
      simp [refreshSeen, findAssoc, Ne.symm hk]
    · simp [refreshSeen, findAssoc, h0, ih]

/-- Refreshing a timestamp does not change the key list. -/
theorem keys_refreshSeen (key : String) (now : Nat) :
    ∀ l : List (String × Assoc),
      (refreshSeen key now l).map Prod.fst = l.map Prod.fst := by
  intro l
  induction l with
  | nil => rfl
  | cons hd tl ih =>
    obtain ⟨k0, v⟩ := hd
    by_cases h0 : k0 = key <;> simp [refreshSeen, h0, ih]

/-- The entries a reaper pass keeps form a sublist of the original map. -/
theorem sweepScan_kept_sublist (idle : Int) (now : Nat) :
    ∀ l : List (String × Assoc), ((sweepScan idle now l).1).Sublist l := by
  intro l
  induction l with
  | nil => simp [sweepScan]
  | cons hd tl ih =>
    by_cases hc : idle < (now : Int) - (hd.2.lastSeen : Int)
    · simpa [sweepScan, hc] using ih.cons hd
    · simpa [sweepScan, hc] using ih.cons₂ hd

/-- `findAssoc` misses exactly the keys outside the key list. -/
theorem findAssoc_eq_none_iff (k : String) :
    ∀ l : List (String × Assoc),
      findAssoc k l = none ↔ k ∉ l.map Prod.fst := by
  intro l
  induction l with
  | nil => simp [findAssoc]
  | cons hd tl ih =>
    obtain ⟨k0, v⟩ := hd
    by_cases h0 : k0 = k
    · simp [findAssoc, h0]
    · simp [findAssoc, h0, ih]
      exact fun _ hk => h0 hk.symm

/-- A non-idle entry survives a reaper pass unchanged. -/
theorem findAssoc_sweepScan_kept (idle : Int) (now : Nat) (k : String) :
    ∀ l a, findAssoc k l = some a →
      ¬(idle < (now : Int) - (a.lastSeen : Int)) →
      findAssoc k (sweepScan idle now l).1 = some a := by
  intro l
  induction l with
  | nil => intro a h _; simp [findAssoc] at h
  | cons hd tl ih =>
    intro a h hidle
    obtain ⟨k0, v⟩ := hd
    by_cases h0 : k0 = k
    · subst h0
      simp [findAssoc] at h
      subst h
      simp [sweepScan, findAssoc, hidle]
    · simp [findAssoc, h0] at h
      by_cases hc : idle < (now : Int) - (v.lastSeen : Int) <;>
        simp [sweepScan, findAssoc, hc, h0, ih a h hidle]

/-- An absent key stays absent across a reaper pass. -/
theorem findAssoc_sweepScan_none (idle : Int) (now : Nat) (k : String)
    (l : List (String × Assoc)) (h : findAssoc k l = none) :
    findAssoc k (sweepScan idle now l).1 = none := by
  rw [findAssoc_eq_none_iff] at h ⊢
  intro hmem
  exact h (((sweepScan_kept_sublist idle now l).map Prod.fst).subset hmem)

/-- The map's keys are pairwise distinct: at most one association per
client address. -/
def keysNodup (s : UDPState) : Prop := (s.assocs.map Prod.fst).Nodup

/-- Every step of the multiplexer preserves key distinctness. -/
theorem keysNodup_step (idle : Int) (s : UDPState) (e : UDPEvent)
    (h : keysNodup s) : keysNodup (udpStep idle s e).1 := by
  cases e with
  | datagram now src data dialOk =>
    cases hf : findAssoc src s.assocs with
    | some a =>
      simpa [udpStep, hf, keysNodup, keys_refreshSeen] using h
    | none =>
      cases dialOk with
      | false => simpa [udpStep, hf] using h
      | true =>
        have hnotin : src ∉ s.assocs.map Prod.fst :=
          (findAssoc_eq_none_iff src s.assocs).1 hf
        have hnotin2 : ∀ x : Assoc, (src, x) ∉ s.assocs := by
          intro x hx
          exact hnotin (List.mem_map_of_mem Prod.fst hx)
        simpa [udpStep, hf, keysNodup] using ⟨hnotin2, h⟩
  | backendPacket cli data => exact h
  | backendErr src => exact h
  | sweep now =>
    exact List.Nodup.sublist
      ((sweepScan_kept_sublist idle now s.assocs).map Prod.fst) h

/-- Key distinctness holds in every state reachable from startup. -/
theorem keysNodup_run (idle : Int) :
    ∀ evs s, keysNodup s → keysNodup (udpRun idle s evs) := by
  intro evs
  induction evs with
  | nil => intro s h; exact h
  | cons e rest ih =>
    intro s h
    exact ih (udpStep idle s e).1 (keysNodup_step idle s e h)

/-- C7: the reaper is the only remover. A forwarding task's death on a
backend read error changes nothing (`backendErr` is a strict no-op); every
non-sweep event keeps any existing association's entry (same client
address and backend socket) and never decreases active-UDP; and a sweep
keeps an entry verbatim while it is not yet idle. -/
theorem reaper_sole_remover (idle : Int) (s : UDPState) :
    (∀ src, udpStep idle s (UDPEvent.backendErr src) = (s, [])) ∧
    (∀ e : UDPEvent, (∀ now, e ≠ UDPEvent.sweep now) →
      ∀ k a, findAssoc k s.assocs = some a →
        ∃ a', findAssoc k (udpStep idle s e).1.assocs = some a' ∧
          a'.cliAddr = a.cliAddr ∧ a'.backendSock = a.backendSock ∧
          s.activeUDP ≤ (udpStep idle s e).1.activeUDP) ∧
    (∀ (now : Nat) k a, findAssoc k s.assocs = some a →
      ¬(idle < (now : Int) - (a.lastSeen : Int)) →
      findAssoc k (udpStep idle s (UDPEvent.sweep now)).1.assocs = some a) := by
  refine ⟨fun src => rfl, ?_, ?_⟩
  · intro e he k a ha
    cases e with
    | datagram now src data dialOk =>
      cases hf : findAssoc src s.assocs with
      | some b =>
        by_cases hk : k = src
        · subst hk
          have hab : a = b := by rw [ha] at hf; exact Option.some_inj.1 hf
          subst hab
          refine ⟨{ a with lastSeen := now }, ?_, rfl, rfl, ?_⟩
          · simpa [udpStep, hf] using findAssoc_refreshSeen_self k now s.assocs a ha
          · simp [udpStep, hf]
        · refine ⟨a, ?_, rfl, rfl, ?_⟩
          · simpa [udpStep, hf] using
              (findAssoc_refreshSeen_ne src k now hk s.assocs).trans ha
          · simp [udpStep, hf]
      | none =>
        have hk : k ≠ src := by
          intro hkk
          rw [hkk, hf] at ha
          exact Option.noConfusion ha
        cases dialOk with
        | false => exact ⟨a, by simpa [udpStep, hf] using ha, rfl, rfl, by simp [udpStep, hf]⟩
        | true =>
          refine ⟨a, ?_, rfl, rfl, ?_⟩
          · simpa [udpStep, hf] using
              (findAssoc_cons_ne k src ⟨src, s.nextSock, now⟩ s.assocs hk).trans ha
          · simp [udpStep, hf]
    | backendPacket cli data => exact ⟨a, ha, rfl, rfl, le_refl _⟩
    | backendErr src => exact ⟨a, ha, rfl, rfl, le_refl _⟩
    | sweep now => exact absurd rfl (he now)
  · intro now k a ha hidle
    simpa [udpStep] using
      findAssoc_sweepScan_kept idle now k s.assocs a ha hidle

/-- Witness for `reaper_sole_remover`: with one association present, a
forwarding-task error leaves state and counter untouched, and a prompt
sweep keeps the entry. -/
theorem reaper_sole_remover_witness :
    udpStep 300 ⟨[("c", ⟨"c", 0, 5⟩)], 1, 1⟩ (UDPEvent.backendErr "c") =
      (⟨[("c", ⟨"c", 0, 5⟩)], 1, 1⟩, []) ∧
    (∃ a', findAssoc "c"
        (udpStep 300 ⟨[("c", ⟨"c", 0, 5⟩)], 1, 1⟩
          (UDPEvent.backendErr "c")).1.assocs = some a' ∧
      a'.cliAddr = (⟨"c", 0, 5⟩ : Assoc).cliAddr ∧
      a'.backendSock = (⟨"c", 0, 5⟩ : Assoc).backendSock ∧
      (1 : Int) ≤ (udpStep 300 ⟨[("c", ⟨"c", 0, 5⟩)], 1, 1⟩
          (UDPEvent.backendErr "c")).1.activeUDP) ∧
    findAssoc "c"
        (udpStep 300 ⟨[("c", ⟨"c", 0, 5⟩)], 1, 1⟩
          (UDPEvent.sweep 6)).1.assocs = some ⟨"c", 0, 5⟩ :=
  ⟨(reaper_sole_remover 300 ⟨[("c", ⟨"c", 0, 5⟩)], 1, 1⟩).1 "c",
   (reaper_sole_remover 300 ⟨[("c", ⟨"c", 0, 5⟩)], 1, 1⟩).2.1
     (UDPEvent.backendErr "c") (by intro now h; simp at h) "c" ⟨"c", 0, 5⟩ rfl,
   (reaper_sole_remover 300 ⟨[("c", ⟨"c", 0, 5⟩)], 1, 1⟩).2.2 6 "c" ⟨"c", 0, 5⟩
     rfl (by decide)⟩

/-- The left strand of an interleaving is a subsequence of it. -/
theorem interleave_sublist_left {α : Type} :
    ∀ {l r t : List α}, Interleave l r t → l.Sublist t := by
  intro l r t h
  induction h with
  | nil => exact List.Sublist.refl []
  | left _ ih => exact ih.cons₂ _
  | right _ ih => exact ih.cons _

/-- The right strand of an interleaving is a subsequence of it. -/
theorem interleave_sublist_right {α : Type} :
    ∀ {l r t : List α}, Interleave l r t → r.Sublist t := by
  intro l r t h
  induction h with
  | nil => exact List.Sublist.refl []
  | left _ ih => exact ih.cons _
  | right _ ih => exact ih.cons₂ _

/-- C8: in every possible interleaving of the two copy goroutines, each
direction that finishes performs — next in its own program order — the
deadline call on exactly the socket the other direction reads from, and
both goroutines' `wg.Done()` calls lie inside the relay trace, so the
session teardown that follows `wg.Wait()` happens only after both copy
directions have finished. -/
theorem halfclose_deadline_unblocks (t : List SesEv) (h : relayPhase t) :
    (∀ d, List.Sublist [SesEv.copyDone d,
        SesEv.setDeadline (deadlineTarget d), SesEv.wgDone d] t) ∧
    (∀ d, deadlineTarget d = readSock (Dir.other d)) ∧
    (∀ d, SesEv.wgDone d ∈ t) := by
  have hl : List.Sublist (goroutineSeq Dir.c2b) t := interleave_sublist_left h
  have hr : List.Sublist (goroutineSeq Dir.b2c) t := interleave_sublist_right h
  refine ⟨fun d => ?_, fun d => ?_, fun d => ?_⟩
  · cases d
    · exact hl
    · exact hr
  · cases d <;> rfl
  · cases d
    · exact hl.subset (by simp [goroutineSeq])
    · exact hr.subset (by simp [goroutineSeq])

/-- Witness for `halfclose_deadline_unblocks` at the serialization where
the client-to-backend copy finishes first. -/
theorem halfclose_deadline_unblocks_witness :
    (∀ d, List.Sublist [SesEv.copyDone d,
        SesEv.setDeadline (deadlineTarget d), SesEv.wgDone d]
      (goroutineSeq Dir.c2b ++ goroutineSeq Dir.b2c)) ∧
    (∀ d, deadlineTarget d = readSock (Dir.other d)) ∧
    (∀ d, SesEv.wgDone d ∈ goroutineSeq Dir.c2b ++ goroutineSeq Dir.b2c) :=
  halfclose_deadline_unblocks (goroutineSeq Dir.c2b ++ goroutineSeq Dir.b2c)
    (Interleave.left (Interleave.left (Interleave.left
      (Interleave.right (Interleave.right (Interleave.right Interleave.nil))))))

/-! ## Per-client association stability (claim C3)

Hypotheses on event traces: timestamps are nondecreasing (`Mono`), and the
datagrams of one client are separated by strictly less than the idle
threshold (`CGaps`). -/

/-- The wall-clock instant an event carries, when it carries one. -/
def timeOf : UDPEvent → Option Nat
  | UDPEvent.datagram now _ _ _ => some now
  | UDPEvent.sweep now => some now
  | _ => none

/-- All timestamps in the list are at least `t` and nondecreasing. -/
def Mono : Nat → List UDPEvent → Prop
  | _, [] => True
  | t, e :: rest =>
    match timeOf e with
    | some te => t ≤ te ∧ Mono te rest
    | none => Mono t rest

/-- Datagrams from client `c` all carry a successful dial outcome and are
separated by strictly less than `idle` (the first one measured from `prev`
when a previous instant is given). -/
def CGaps (c : String) (idle : Int) : Option Nat → List UDPEvent → Prop
  | _, [] => True
  | prev, UDPEvent.datagram now src _ dialOk :: rest =>
    if src = c then
      dialOk = true ∧
        (match prev with
         | some tp => (now : Int) - (tp : Int) < idle
         | none => True) ∧
        CGaps c idle (some now) rest
    else CGaps c idle prev rest
  | prev, _ :: rest => CGaps c idle prev rest

/-- Number of datagrams from client `c` in an event list. -/
def cCount (c : String) : List UDPEvent → Nat
  | [] => 0
  | UDPEvent.datagram _ src _ _ :: rest =>
    cCount c rest + (if src = c then 1 else 0)
  | _ :: rest => cCount c rest

/-- The backend socket of a to-backend output. -/
def outSock : UDPOut → Option Nat
  | UDPOut.toBackend sk _ => some sk
  | _ => none

/-- The socket handed out by a fresh backend dial. -/
def outDial : UDPOut → Option Nat
  | UDPOut.dialedBackend sk => some sk
  | _ => none

/-- The outputs the run emits while processing the datagrams of client
`c`, in order. -/
def cOuts (idle : Int) (c : String) : UDPState → List UDPEvent → List UDPOut
  | _, [] => []
  | s, UDPEvent.datagram now src data dialOk :: rest =>
    (if src = c
      then (udpStep idle s (UDPEvent.datagram now src data dialOk)).2
      else []) ++
      cOuts idle c (udpStep idle s (UDPEvent.datagram now src data dialOk)).1
        rest
  | s, UDPEvent.backendPacket cli data :: rest =>
    cOuts idle c (udpStep idle s (UDPEvent.backendPacket cli data)).1 rest
  | s, UDPEvent.backendErr src :: rest =>
    cOuts idle c (udpStep idle s (UDPEvent.backendErr src)).1 rest
  | s, UDPEvent.sweep now :: rest =>
    cOuts idle c (udpStep idle s (UDPEvent.sweep now)).1 rest

/-- `Mono` bounds can be weakened. -/
theorem mono_weaken (t t2 : Nat) (h : t2 ≤ t) :
    ∀ evs, Mono t evs → Mono t2 evs := by
  intro evs
  induction evs with
  | nil => intro _; trivial
  | cons e rest ih =>
    intro hm
    cases he : timeOf e with
    | some te =>
      simp only [Mono, he] at hm ⊢
      exact ⟨le_trans h hm.1, hm.2⟩
    | none =>
      simp only [Mono, he] at hm ⊢
      exact ih hm

/-- A trace with no datagrams of client `c` emits no outputs for `c`. -/
theorem cOuts_of_cCount_zero (idle : Int) (c : String) :
    ∀ evs s, cCount c evs = 0 → cOuts idle c s evs = [] := by
  intro evs
  induction evs with
  | nil => intro s _; rfl
  | cons e rest ih =>
    intro s hc
    cases e with
    | datagram now src data dialOk =>
      by_cases hs : src = c
      · simp [cCount, hs] at hc
      · simp [cCount, hs] at hc
        simp [cOuts, hs, ih _ hc]
    | backendPacket cli data =>
      simp [cCount] at hc
      simp [cOuts, ih _ hc]
    | backendErr src =>
      simp [cCount] at hc
      simp [cOuts, ih _ hc]
    | sweep now =>
      simp [cCount] at hc
      simp [cOuts, ih _ hc]

/-- Once enough time has passed that `idle < T - tp`, a trace whose times
start at `T` and whose `c`-gaps (measured from `tp`) are below `idle`
cannot contain another datagram of `c`. -/
theorem cCount_zero_of_gap (c : String) (idle : Int) (tp : Nat) :
    ∀ evs (T : Nat), tp ≤ T → idle < (T : Int) - (tp : Int) →
      Mono T evs → CGaps c idle (some tp) evs → cCount c evs = 0 := by
  intro evs
  induction evs with
  | nil => intro T _ _ _ _; rfl
  | cons e rest ih =>
    intro T htp hgap hm hg
    cases e with
    | datagram now src data dialOk =>
      by_cases hs : src = c
      · exfalso
        simp only [Mono, timeOf] at hm
        simp only [CGaps, hs, if_pos] at hg
        have hTn : (T : Int) ≤ (now : Int) := by exact_mod_cast hm.1
        have := hg.2.1
        omega
      · simp only [Mono, timeOf] at hm
        simp only [CGaps, hs, if_neg, ite_false] at hg
        have h1 : tp ≤ now := le_trans htp hm.1
        have h2 : idle < (now : Int) - (tp : Int) := by
          have : (T : Int) ≤ (now : Int) := by exact_mod_cast hm.1
          omega
        simp only [cCount, hs, ite_false]
        simpa using ih now h1 h2 hm.2 hg
    | backendPacket cli data =>
      simp only [Mono, timeOf] at hm
      simp only [CGaps] at hg
      simp only [cCount]
      exact ih T htp hgap hm hg
    | backendErr src =>
      simp only [Mono, timeOf] at hm
      simp only [CGaps] at hg
      simp only [cCount]
      exact ih T htp hgap hm hg
    | sweep now =>
      simp only [Mono, timeOf] at hm
      simp only [CGaps] at hg
      have h1 : tp ≤ now := le_trans htp hm.1
      have h2 : idle < (now : Int) - (tp : Int) := by
        have : (T : Int) ≤ (now : Int) := by exact_mod_cast hm.1
        omega
      simp only [cCount]
      exact ih now h1 h2 hm.2 hg

/-- While client `c` has a live association `a`, every further datagram of
`c` (gaps below `idle`) is written to `a.backendSock`, and no further dial
for `c` happens. -/
theorem cOuts_inMap (idle : Int) (c : String) :
    ∀ evs (s : UDPState) (a : Assoc),
      findAssoc c s.assocs = some a →
      Mono a.lastSeen evs →
      CGaps c idle (some a.lastSeen) evs →
      (cOuts idle c s evs).filterMap outSock =
        List.replicate (cCount c evs) a.backendSock ∧
      (cOuts idle c s evs).filterMap outDial = [] := by
  intro evs
  induction evs with
  | nil => intro s a _ _ _; exact ⟨rfl, rfl⟩
  | cons e rest ih =>
    intro s a ha hm hg
    cases e with
    | datagram now src data dialOk =>
      by_cases hs : src = c
      · subst hs
        simp only [Mono, timeOf] at hm
        simp only [CGaps, if_pos] at hg
        have hstep : udpStep idle s (UDPEvent.datagram now src data dialOk) =
            ({ s with assocs := refreshSeen src now s.assocs },
             [UDPOut.toBackend a.backendSock (data.take udpBufSize)]) := by
          simp [udpStep, ha]
        have ha2 : findAssoc src (refreshSeen src now s.assocs) =
            some { a with lastSeen := now } :=
          findAssoc_refreshSeen_self src now s.assocs a ha
        have hrest := ih { s with assocs := refreshSeen src now s.assocs }
          { a with lastSeen := now } ha2 hm.2 hg.2.2
        simp [cOuts, hstep, cCount, hrest.1, hrest.2, outSock,
          List.replicate_succ]
        exact ⟨rfl, List.filterMap_eq_nil_iff.mp hrest.2⟩
      · simp only [Mono, timeOf] at hm
        simp only [CGaps, hs, ite_false] at hg
        have hm2 : Mono a.lastSeen rest := mono_weaken now a.lastSeen hm.1 rest hm.2
        have hkc : c ≠ src := fun hh => hs hh.symm
        cases hf : findAssoc src s.assocs with
        | some b =>
          have ha2 : findAssoc c
              (udpStep idle s (UDPEvent.datagram now src data dialOk)).1.assocs =
              some a := by
            simpa [udpStep, hf] using
              (findAssoc_refreshSeen_ne src c now hkc s.assocs).trans ha
          have hrest := ih _ a ha2 hm2 hg
          simp [cOuts, hs, hrest.1, hrest.2, cCount]
        | none =>
          cases dialOk with
          | false =>
            have ha2 : findAssoc c
                (udpStep idle s (UDPEvent.datagram now src data false)).1.assocs =
                some a := by simpa [udpStep, hf] using ha
            have hrest := ih _ a ha2 hm2 hg
            simp [cOuts, hs, hrest.1, hrest.2, cCount]
          | true =>
            have ha2 : findAssoc c
                (udpStep idle s (UDPEvent.datagram now src data true)).1.assocs =
                some a := by
              simpa [udpStep, hf] using
                (findAssoc_cons_ne c src ⟨src, s.nextSock, now⟩ s.assocs hkc).trans ha
            have hrest := ih _ a ha2 hm2 hg
            simp [cOuts, hs, hrest.1, hrest.2, cCount]
    | backendPacket cli data =>
      simp only [Mono, timeOf] at hm
      simp only [CGaps] at hg
      have hrest := ih s a ha hm hg
      simpa [cOuts, cCount, udpStep] using hrest
    | backendErr src =>
      simp only [Mono, timeOf] at hm
      simp only [CGaps] at hg
      have hrest := ih s a ha hm hg
      simpa [cOuts, cCount, udpStep] using hrest
    | sweep now =>
      simp only [Mono, timeOf] at hm
      simp only [CGaps] at hg
      by_cases hc : idle < (now : Int) - (a.lastSeen : Int)
      · have hz : cCount c rest = 0 :=
          cCount_zero_of_gap c idle a.lastSeen rest now hm.1 hc hm.2 hg
        have hz2 := cOuts_of_cCount_zero idle c rest
          (udpStep idle s (UDPEvent.sweep now)).1 hz
        simp [cOuts, cCount, hz, hz2]
      · have ha2 : findAssoc c
            (udpStep idle s (UDPEvent.sweep now)).1.assocs = some a := by
          simpa [udpStep] using
            findAssoc_sweepScan_kept idle now c s.assocs a ha hc
        have hm2 : Mono a.lastSeen rest :=
          mono_weaken now a.lastSeen hm.1 rest hm.2
        have hrest := ih _ a ha2 hm2 hg
        simpa [cOuts, cCount] using hrest

/-- Starting from a state with no association for client `c`, a trace with
nondecreasing times and `c`-gaps below `idle` makes at most one backend
dial for `c` and sends every datagram of `c` to that one socket. -/
theorem cOuts_notInMap (idle : Int) (c : String) :
    ∀ evs (s : UDPState) (t0 : Nat),
      findAssoc c s.assocs = none →
      Mono t0 evs →
      CGaps c idle none evs →
      ∃ σ, (cOuts idle c s evs).filterMap outSock =
          List.replicate (cCount c evs) σ ∧
        (cOuts idle c s evs).filterMap outDial =
          (if cCount c evs = 0 then [] else [σ]) := by
  intro evs
  induction evs with
  | nil => intro s t0 _ _ _; exact ⟨0, rfl, rfl⟩
  | cons e rest ih =>
    intro s t0 hnone hm hg
    cases e with
    | datagram now src data dialOk =>
      by_cases hs : src = c
      · subst hs
        simp only [Mono, timeOf] at hm
        simp only [CGaps, if_pos] at hg
        obtain ⟨hdok, -, hg2⟩ := hg
        subst hdok
        have hstep : udpStep idle s (UDPEvent.datagram now src data true) =
            ({ assocs := (src, ⟨src, s.nextSock, now⟩) :: s.assocs,
               activeUDP := s.activeUDP + 1,
               nextSock := s.nextSock + 1 },
             [UDPOut.dialedBackend s.nextSock,
              UDPOut.toBackend s.nextSock (data.take udpBufSize)]) :=
          udpStep_datagram_new idle now src data s hnone
        have ha2 : findAssoc src
            ((src, (⟨src, s.nextSock, now⟩ : Assoc)) :: s.assocs) =
            some ⟨src, s.nextSock, now⟩ := by
          simp [findAssoc]
        have hrest := cOuts_inMap idle src rest
          { assocs := (src, ⟨src, s.nextSock, now⟩) :: s.assocs,
            activeUDP := s.activeUDP + 1,
            nextSock := s.nextSock + 1 }
          ⟨src, s.nextSock, now⟩ ha2 hm.2 hg2
        refine ⟨s.nextSock, ?_, ?_⟩
        · simp [cOuts, hstep, cCount, hrest.1, outSock, outDial,
            List.replicate_succ]
        · simp [cOuts, hstep, cCount, hrest.2, outSock, outDial]
      · simp only [Mono, timeOf] at hm
        simp only [CGaps, hs, ite_false] at hg
        have hkc : c ≠ src := fun hh => hs hh.symm
        cases hf : findAssoc src s.assocs with
        | some b =>
          have hn2 : findAssoc c
              (udpStep idle s (UDPEvent.datagram now src data dialOk)).1.assocs =
              none := by
            simpa [udpStep, hf] using
              (findAssoc_refreshSeen_ne src c now hkc s.assocs).trans hnone
          obtain ⟨σ, h1, h2⟩ := ih _ now hn2 hm.2 hg
          exact ⟨σ, by simp [cOuts, hs, h1, cCount],
            by simp [cOuts, hs, h2, cCount]⟩
        | none =>
          cases dialOk with
          | false =>
            have hn2 : findAssoc c
                (udpStep idle s (UDPEvent.datagram now src data false)).1.assocs =
                none := by simpa [udpStep, hf] using hnone
            obtain ⟨σ, h1, h2⟩ := ih _ now hn2 hm.2 hg
            exact ⟨σ, by simp [cOuts, hs, h1, cCount],
              by simp [cOuts, hs, h2, cCount]⟩
          | true =>
            have hn2 : findAssoc c
                (udpStep idle s (UDPEvent.datagram now src data true)).1.assocs =
                none := by
              simpa [udpStep, hf] using
                (findAssoc_cons_ne c src ⟨src, s.nextSock, now⟩ s.assocs hkc).trans
                  hnone
            obtain ⟨σ, h1, h2⟩ := ih _ now hn2 hm.2 hg
            exact ⟨σ, by simp [cOuts, hs, h1, cCount],
              by simp [cOuts, hs, h2, cCount]⟩
    | backendPacket cli data =>
      simp only [Mono, timeOf] at hm
      simp only [CGaps] at hg
      obtain ⟨σ, h1, h2⟩ := ih s t0 hnone hm hg
      exact ⟨σ, by simpa [cOuts, cCount, udpStep] using h1,
        by simpa [cOuts, cCount, udpStep] using h2⟩
    | backendErr src =>
      simp only [Mono, timeOf] at hm
      simp only [CGaps] at hg
      obtain ⟨σ, h1, h2⟩ := ih s t0 hnone hm hg
      exact ⟨σ, by simpa [cOuts, cCount, udpStep] using h1,
        by simpa [cOuts, cCount, udpStep] using h2⟩
    | sweep now =>
      simp only [Mono, timeOf] at hm
      simp only [CGaps] at hg
      have hn2 : findAssoc c
          (udpStep idle s (UDPEvent.sweep now)).1.assocs = none := by
        simpa [udpStep] using
          findAssoc_sweepScan_none idle now c s.assocs hnone
      obtain ⟨σ, h1, h2⟩ := ih _ now hn2 hm.2 hg
      exact ⟨σ, by simpa [cOuts, cCount] using h1,
        by simpa [cOuts, cCount] using h2⟩

/-- C3: the association map never holds two entries for one client
address (key distinctness holds in every reachable state), and a client
whose datagrams arrive at intervals strictly below the idle timeout keeps
one single association: every datagram is forwarded to the same backend
socket and exactly one backend dial happens for that client (none when it
sends no datagram). -/
theorem udp_one_assoc_one_dial (idle : Int) (c : String)
    (evs : List UDPEvent) (hm : Mono 0 evs) (hg : CGaps c idle none evs) :
    (∀ pre : List UDPEvent, keysNodup (udpRun idle initUDP pre)) ∧
    ∃ σ, (cOuts idle c initUDP evs).filterMap outSock =
        List.replicate (cCount c evs) σ ∧
      (cOuts idle c initUDP evs).filterMap outDial =
        (if cCount c evs = 0 then [] else [σ]) := by
  refine ⟨fun pre => keysNodup_run idle pre initUDP ?_, ?_⟩
  · simp [keysNodup, initUDP]
  · exact cOuts_notInMap idle c evs initUDP 0 rfl hm hg

/-- A concrete trace for the stability witness: two datagrams from one
client 15 time units apart with a sweep in between, idle timeout 100. -/
def c3trace : List UDPEvent :=
  [UDPEvent.datagram 10 "c" [1] true, UDPEvent.sweep 20,
   UDPEvent.datagram 25 "c" [2] true]

/-- Witness for `udp_one_assoc_one_dial` on `c3trace`. -/
theorem udp_one_assoc_one_dial_witness :
    keysNodup (udpRun 100 initUDP [UDPEvent.datagram 10 "c" [1] true]) ∧
    ∃ σ, (cOuts 100 "c" initUDP c3trace).filterMap outSock =
        List.replicate (cCount "c" c3trace) σ ∧
      (cOuts 100 "c" initUDP c3trace).filterMap outDial =
        (if cCount "c" c3trace = 0 then [] else [σ]) :=
  ⟨(udp_one_assoc_one_dial 100 "c" c3trace
      (by norm_num [c3trace, Mono, timeOf]) (by norm_num [c3trace, CGaps])).1
    [UDPEvent.datagram 10 "c" [1] true],
   (udp_one_assoc_one_dial 100 "c" c3trace
      (by norm_num [c3trace, Mono, timeOf]) (by norm_num [c3trace, CGaps])).2⟩

/-! ## Counter pairing (claim C5)

`activeTCP` is mutated only by `atomic.AddInt64(&activeTCP, ±1)` at the
start and in the deferred cleanup of `handleTCP`, so its history is a
trace of per-session increment/decrement events; `activeUDP` is carried
inside `UDPState` and follows the association map. -/

/-- The TCP counter value after a trace of `(session id, isIncrement)`
events: increments minus decrements. -/
def tcpCount (evs : List (Nat × Bool)) : Int :=
  ((evs.filter (fun e => e.2)).length : Int) -
    ((evs.filter (fun e => !e.2)).length : Int)

/-- The counter events one session contributed, in trace order. -/
def sessionEvs (id : Nat) (evs : List (Nat × Bool)) : List Bool :=
  (evs.filter (fun e => e.1 == id)).map Prod.snd

/-- Each session increments exactly once on creation and decrements
exactly once on destruction, in that order: its projection is a stage of
`[true, false]`. -/
def PairedEvs (evs : List (Nat × Bool)) : Prop :=
  ∀ id, sessionEvs id evs = [] ∨ sessionEvs id evs = [true] ∨
    sessionEvs id evs = [true, false]

/-- Every session that incremented has also decremented. -/
def AllClosed (evs : List (Nat × Bool)) : Prop :=
  ∀ id, sessionEvs id evs = [] ∨ sessionEvs id evs = [true, false]

/-- Unfolding `sessionEvs` over a cons. -/
theorem sessionEvs_cons (id i : Nat) (b : Bool) (rest : List (Nat × Bool)) :
    sessionEvs id ((i, b) :: rest) =
      if i = id then b :: sessionEvs id rest else sessionEvs id rest := by
  by_cases hi : i = id <;> simp [sessionEvs, List.filter_cons, hi]

/-- Increment events of session `id` are its `true` events. -/
theorem count_incIds (id : Nat) :
    ∀ evs : List (Nat × Bool),
      ((evs.filter (fun e => e.2)).map Prod.fst).count id =
        (sessionEvs id evs).count true := by
  intro evs
  induction evs with
  | nil => rfl
  | cons e rest ih =>
    obtain ⟨i, b⟩ := e
    rw [sessionEvs_cons]
    by_cases hi : i = id <;> cases b <;>
      simp [List.filter_cons, hi, List.count_cons, ih]

/-- Decrement events of session `id` are its `false` events. -/
theorem count_decIds (id : Nat) :
    ∀ evs : List (Nat × Bool),
      ((evs.filter (fun e => !e.2)).map Prod.fst).count id =
        (sessionEvs id evs).count false := by
  intro evs
  induction evs with
  | nil => rfl
  | cons e rest ih =>
    obtain ⟨i, b⟩ := e
    rw [sessionEvs_cons]
    by_cases hi : i = id <;> cases b <;>
      simp [List.filter_cons, hi, List.count_cons, ih]

/-- A stage of `[true, false]` followed by anything is itself recognisable:
only `[]`, `[true]` and `[true, false]` can begin such a concatenation. -/
theorem append_bool_pattern : ∀ A B : List Bool,
    A ++ B = [] ∨ A ++ B = [true] ∨ A ++ B = [true, false] →
    A = [] ∨ A = [true] ∨ A = [true, false] := by
  intro A B h
  cases A with
  | nil => exact Or.inl rfl
  | cons a A1 =>
    cases A1 with
    | nil =>
      rcases h with h | h | h
      · simp at h
      · rw [List.cons_append] at h
        injection h with h1 h2
        subst h1
        exact Or.inr (Or.inl rfl)
      · rw [List.cons_append] at h
        injection h with h1 h2
        subst h1
        exact Or.inr (Or.inl rfl)
    | cons b A2 =>
      cases A2 with
      | nil =>
        rcases h with h | h | h
        · simp at h
        · have := congrArg List.length h
          simp at this
        · rw [List.cons_append, List.cons_append] at h
          injection h with h1 h2
          subst h1
          injection h2 with h3 h4
          subst h3
          exact Or.inr (Or.inr rfl)
      | cons c A3 =>
        exfalso
        rcases h with h | h | h <;>
        · have := congrArg List.length h
          simp [List.length_append] at this

/-- `PairedEvs` restricts to trace prefixes. -/
theorem pairedEvs_append_left (pre suf : List (Nat × Bool))
    (h : PairedEvs (pre ++ suf)) : PairedEvs pre := by
  intro id
  have hh := h id
  have hsplit : sessionEvs id (pre ++ suf) =
      sessionEvs id pre ++ sessionEvs id suf := by
    simp [sessionEvs, List.filter_append]
  rw [hsplit] at hh
  exact append_bool_pattern _ _ hh

/-- Under pairing, there are at most as many decrements as increments. -/
theorem dec_length_le_inc_length (evs : List (Nat × Bool))
    (h : PairedEvs evs) :
    (evs.filter (fun e => !e.2)).length ≤ (evs.filter (fun e => e.2)).length := by
  have hincN : ((evs.filter (fun e => e.2)).map Prod.fst).Nodup := by
    rw [List.nodup_iff_count_le_one]
    intro a
    rw [count_incIds a evs]
    rcases h a with hh | hh | hh <;> rw [hh] <;> decide
  have hdecN : ((evs.filter (fun e => !e.2)).map Prod.fst).Nodup := by
    rw [List.nodup_iff_count_le_one]
    intro a
    rw [count_decIds a evs]
    rcases h a with hh | hh | hh <;> rw [hh] <;> decide
  have hsub : ∀ a ∈ (evs.filter (fun e => !e.2)).map Prod.fst,
      a ∈ (evs.filter (fun e => e.2)).map Prod.fst := by
    intro a ha
    have h1 : 0 < ((evs.filter (fun e => !e.2)).map Prod.fst).count a :=
      List.count_pos_iff.mpr ha
    rw [count_decIds a evs] at h1
    rcases h a with hh | hh | hh
    · rw [hh] at h1; simp at h1
    · rw [hh] at h1; simp at h1
    · have h2 : ((evs.filter (fun e => e.2)).map Prod.fst).count a = 1 := by
        rw [count_incIds a evs, hh]; decide
      exact List.count_pos_iff.mp (by omega)
  have e1 := List.toFinset_card_of_nodup hdecN
  have e2 := List.toFinset_card_of_nodup hincN
  have hss : ((evs.filter (fun e => !e.2)).map Prod.fst).toFinset ⊆
      ((evs.filter (fun e => e.2)).map Prod.fst).toFinset := by
    intro a ha
    exact List.mem_toFinset.mpr (hsub a (List.mem_toFinset.mp ha))
  have hcard := Finset.card_le_card hss
  rw [e1, e2] at hcard
  simpa [List.length_map] using hcard

/-- When every session has closed, increments and decrements balance. -/
theorem inc_length_eq_dec_length (evs : List (Nat × Bool))
    (h : AllClosed evs) :
    (evs.filter (fun e => e.2)).length = (evs.filter (fun e => !e.2)).length := by
  have hp : PairedEvs evs := fun id => by
    rcases h id with hh | hh
    · exact Or.inl hh
    · exact Or.inr (Or.inr hh)
  have hle := dec_length_le_inc_length evs hp
  have hsub2 : ∀ a ∈ (evs.filter (fun e => e.2)).map Prod.fst,
      a ∈ (evs.filter (fun e => !e.2)).map Prod.fst := by
    intro a ha
    have h1 : 0 < ((evs.filter (fun e => e.2)).map Prod.fst).count a :=
      List.count_pos_iff.mpr ha
    rw [count_incIds a evs] at h1
    rcases h a with hh | hh
    · rw [hh] at h1; simp at h1
    · have h2 : ((evs.filter (fun e => !e.2)).map Prod.fst).count a = 1 := by
        rw [count_decIds a evs, hh]; decide
      exact List.count_pos_iff.mp (by omega)
  have hincN : ((evs.filter (fun e => e.2)).map Prod.fst).Nodup := by
    rw [List.nodup_iff_count_le_one]
    intro a
    rw [count_incIds a evs]
    rcases h a with hh | hh <;> rw [hh] <;> decide
  have hdecN : ((evs.filter (fun e => !e.2)).map Prod.fst).Nodup := by
    rw [List.nodup_iff_count_le_one]
    intro a
    rw [count_decIds a evs]
    rcases h a with hh | hh <;> rw [hh] <;> decide
  have e1 := List.toFinset_card_of_nodup hdecN
  have e2 := List.toFinset_card_of_nodup hincN
  have hss : ((evs.filter (fun e => e.2)).map Prod.fst).toFinset ⊆
      ((evs.filter (fun e => !e.2)).map Prod.fst).toFinset := by
    intro a ha
    exact List.mem_toFinset.mpr (hsub2 a (List.mem_toFinset.mp ha))
  have hcard := Finset.card_le_card hss
  rw [e1, e2] at hcard
  have hge : (evs.filter (fun e => e.2)).length ≤
      (evs.filter (fun e => !e.2)).length := by
    simpa [List.length_map] using hcard
  omega

/-- Refreshing a timestamp does not change the map's size. -/
theorem length_refreshSeen (key : String) (now : Nat) :
    ∀ l : List (String × Assoc), (refreshSeen key now l).length = l.length := by
  intro l
  induction l with
  | nil => rfl
  | cons hd tl ih =>
    obtain ⟨k0, v⟩ := hd
    by_cases h0 : k0 = key <;> simp [refreshSeen, h0, ih]

/-- Kept entries plus evictions account for the whole map. -/
theorem sweepScan_length (idle : Int) (now : Nat) :
    ∀ l : List (String × Assoc),
      ((sweepScan idle now l).1).length + (sweepScan idle now l).2.2 =
        l.length := by
  intro l
  induction l with
  | nil => rfl
  | cons hd tl ih =>
    by_cases hc : idle < (now : Int) - (hd.2.lastSeen : Int) <;>
      simp [sweepScan, hc] <;> omega

/-- In every reachable state, `activeUDP` equals the number of live
associations: each insertion added one and each eviction removed one. -/
theorem activeUDP_eq_length (idle : Int) :
    ∀ evs (s : UDPState), s.activeUDP = (s.assocs.length : Int) →
      (udpRun idle s evs).activeUDP =
        ((udpRun idle s evs).assocs.length : Int) := by
  intro evs
  induction evs with
  | nil => intro s h; exact h
  | cons e rest ih =>
    intro s h
    refine ih _ ?_
    cases e with
    | datagram now src data dialOk =>
      cases hf : findAssoc src s.assocs with
      | some a => simp [udpStep, hf, length_refreshSeen, h]
      | none =>
        cases dialOk with
        | false => simpa [udpStep, hf] using h
        | true =>
          simp only [udpStep, hf]
          simp [List.length_cons]
          omega
    | backendPacket cli data => exact h
    | backendErr src => exact h
    | sweep now =>
      have hlen := sweepScan_length idle now s.assocs
      simp only [udpStep]
      omega

/-- C5: counters are strictly paired.  (i) A TCP counter trace in which
every session's events are exactly one increment then one decrement ends
at zero once all sessions have closed; (ii) the counter is non-negative
after every trace prefix; (iii) one handler run contributes exactly one
increment and one decrement; (iv) `activeUDP` always equals the number of
live associations — hence non-negative, and zero whenever the map is
empty (in particular after every association has been evicted). -/
theorem counters_strictly_paired :
    (∀ evs : List (Nat × Bool), PairedEvs evs → AllClosed evs →
      tcpCount evs = 0) ∧
    (∀ evs pre suf : List (Nat × Bool), PairedEvs evs → evs = pre ++ suf →
      0 ≤ tcpCount pre) ∧
    (∀ dialOk hdrOk cliIP locIP cliPort locPort c2b b2c,
      (handleTCPTrace dialOk hdrOk cliIP locIP cliPort locPort c2b b2c).count
          TAct.incTCP = 1 ∧
      (handleTCPTrace dialOk hdrOk cliIP locIP cliPort locPort c2b b2c).count
          TAct.decTCP = 1) ∧
    (∀ (idle : Int) (evs : List UDPEvent),
      (udpRun idle initUDP evs).activeUDP =
        ((udpRun idle initUDP evs).assocs.length : Int) ∧
      0 ≤ (udpRun idle initUDP evs).activeUDP ∧
      ((udpRun idle initUDP evs).assocs = [] →
        (udpRun idle initUDP evs).activeUDP = 0)) := by
  refine ⟨?_, ?_, ?_, ?_⟩
  · intro evs hp hc
    have h1 := inc_length_eq_dec_length evs hc
    simp [tcpCount, h1]
  · intro evs pre suf hp hsplit
    subst hsplit
    have hpre : PairedEvs pre := pairedEvs_append_left pre suf hp
    have hle := dec_length_le_inc_length pre hpre
    have : ((pre.filter (fun e => !e.2)).length : Int) ≤
        ((pre.filter (fun e => e.2)).length : Int) := by exact_mod_cast hle
    simp only [tcpCount]
    omega
  · intro dialOk hdrOk cliIP locIP cliPort locPort c2b b2c
    cases dialOk <;> cases hdrOk <;>
      simp [handleTCPTrace, List.count_cons, List.count_nil]
  · intro idle evs
    have h := activeUDP_eq_length idle evs initUDP (by simp [initUDP])
    refine ⟨h, ?_, ?_⟩
    · rw [h]
      exact Int.natCast_nonneg _
    · intro he
      rw [h, he]
      rfl

/-- Witness for `counters_strictly_paired`: one session opening then
closing returns the TCP counter to zero and never drives it negative; a
handler run and a one-datagram UDP run agree with the counters. -/
theorem counters_strictly_paired_witness :
    tcpCount [((0 : Nat), true), (0, false)] = 0 ∧
    0 ≤ tcpCount [((0 : Nat), true)] ∧
    (handleTCPTrace true true "1.2.3.4" "10.0.0.1" 7 9 [80] []).count
        TAct.incTCP = 1 ∧
    (udpRun 300 initUDP [UDPEvent.datagram 5 "c" [1] true]).activeUDP =
      ((udpRun 300 initUDP
        [UDPEvent.datagram 5 "c" [1] true]).assocs.length : Int) :=
  ⟨counters_strictly_paired.1 [((0 : Nat), true), (0, false)]
    (by
      intro id
      by_cases h : (0 : Nat) = id
      · subst h
        right; right; rfl
      · left
        have hb : ((0 : Nat) == id) = false := by simp [h]
        simp [sessionEvs, List.filter_cons, hb])
    (by
      intro id
      by_cases h : (0 : Nat) = id
      · subst h
        right; rfl
      · left
        have hb : ((0 : Nat) == id) = false := by simp [h]
        simp [sessionEvs, List.filter_cons, hb]),
   counters_strictly_paired.2.1 [((0 : Nat), true), (0, false)]
    [((0 : Nat), true)] [((0 : Nat), false)]
    (by
      intro id
      by_cases h : (0 : Nat) = id
      · subst h
        right; right; rfl
      · left
        have hb : ((0 : Nat) == id) = false := by simp [h]
        simp [sessionEvs, List.filter_cons, hb])
    rfl,
   (counters_strictly_paired.2.2.1 true true "1.2.3.4" "10.0.0.1" 7 9
     [80] []).1,
   (counters_strictly_paired.2.2.2 300
     [UDPEvent.datagram 5 "c" [1] true]).1⟩

end MCProxy
